import Mathlib

/-!
Verification of the `tysonmote/cache` repository.

The `LFU` namespace embeds `lfu/lfu.go`: a fixed-size cache with a
probabilistic least-frequently-used eviction policy.  Go maps are embedded
as association lists (`List (K × V)`); the unspecified map iteration order
is represented by the order of the association list, and theorems quantify
over arbitrary well-formed states, hence over all iteration orders.  The
`rand.Float64` draw consumed by `Get` is passed in explicitly as a rational
`r`; `float64` arithmetic on the constant `0.01` is embedded exactly over `ℚ`.
Reads of an absent key from a Go map (which yield the zero value) are
embedded as `Option` reads returning `none`.

The `TraceArc` namespace embeds the ARC-format trace reader
(`arcReader.Read` and `chompInt`): lines are lists of characters, and the
run-time panic of `unsafe.String(&line[0], -1)` when a line holds no
separator is embedded as `none`.
-/

namespace LFU

variable {K V : Type} [DecidableEq K]

/-- Lookup in a Go map embedded as an association list (`m[k]` with the
comma-ok idiom: `none` means the key is absent). -/
def lookupK : List (K × V) → K → Option V
  | [], _ => none
  | (k', v) :: t, k => if k' = k then some v else lookupK t k

/-- Key membership in an embedded Go map. -/
def memK (l : List (K × V)) (k : K) : Prop := (lookupK l k).isSome = true

instance (l : List (K × V)) (k : K) : Decidable (memK l k) := by
  unfold memK; infer_instance

/-- Go map assignment `m[k] = v`: replace the binding in place if the key is
present, otherwise append a fresh binding. -/
def mapSet : List (K × V) → K → V → List (K × V)
  | [], k, v => [(k, v)]
  | (k', v') :: t, k, v => if k' = k then (k, v) :: t else (k', v') :: mapSet t k v

/-- Go map deletion `delete(m, k)`. -/
def mapDel : List (K × V) → K → List (K × V)
  | [], _ => []
  | (k', v) :: t, k => if k' = k then mapDel t k else (k', v) :: mapDel t k

/-- The keys of an embedded Go map are pairwise distinct. -/
def keysNodup (l : List (K × V)) : Prop := (l.map Prod.fst).Nodup

@[simp] theorem lookupK_nil (k : K) : lookupK ([] : List (K × V)) k = none := rfl

@[simp] theorem lookupK_cons (k' : K) (v : V) (t : List (K × V)) (k : K) :
    lookupK ((k', v) :: t) k = if k' = k then some v else lookupK t k := rfl

theorem memK_iff_mem_keys (l : List (K × V)) (k : K) :
    memK l k ↔ k ∈ l.map Prod.fst := by
  induction l with
  | nil => simp [memK]
  | cons p t ih =>
    obtain ⟨k0, v0⟩ := p
    by_cases h0 : k0 = k
    · subst h0; simp [memK]
    · simp only [memK, lookupK_cons, if_neg h0, List.map_cons, List.mem_cons]
      constructor
      · intro hm; exact Or.inr (ih.mp hm)
      · rintro (hm | hm)
        · exact absurd hm.symm h0
        · exact ih.mpr hm

@[simp] theorem lookupK_mapSet_self (l : List (K × V)) (k : K) (v : V) :
    lookupK (mapSet l k v) k = some v := by
  induction l with
  | nil => simp [mapSet]
  | cons p t ih =>
    obtain ⟨k', v'⟩ := p
    by_cases h : k' = k <;> simp [mapSet, h, ih]

theorem lookupK_mapSet_ne (l : List (K × V)) (k k' : K) (v : V) (h : k' ≠ k) :
    lookupK (mapSet l k v) k' = lookupK l k' := by
  have hne : ¬ k = k' := fun h2 => h h2.symm
  induction l with
  | nil => simp [mapSet, hne]
  | cons p t ih =>
    obtain ⟨k0, v0⟩ := p
    by_cases h0 : k0 = k
    · subst h0; simp [mapSet, hne]
    · by_cases h1 : k0 = k'
      · subst h1; simp [mapSet, h0, ih]
      · simp [mapSet, h0, h1, ih]

@[simp] theorem lookupK_mapDel_self (l : List (K × V)) (k : K) :
    lookupK (mapDel l k) k = none := by
  induction l with
  | nil => simp [mapDel]
  | cons p t ih =>
    obtain ⟨k0, v0⟩ := p
    by_cases h0 : k0 = k <;> simp [mapDel, h0, ih]

theorem lookupK_mapDel_ne (l : List (K × V)) (k k' : K) (h : k' ≠ k) :
    lookupK (mapDel l k) k' = lookupK l k' := by
  induction l with
  | nil => simp [mapDel]
  | cons p t ih =>
    obtain ⟨k0, v0⟩ := p
    by_cases h0 : k0 = k
    · subst h0
      have : ¬ k0 = k' := fun h2 => h h2.symm
      simp [mapDel, this, ih]
    · by_cases h1 : k0 = k'
      · subst h1; simp [mapDel, h0, ih]
      · simp [mapDel, h0, h1, ih]

theorem memK_mapSet (l : List (K × V)) (k k' : K) (v : V) :
    memK (mapSet l k v) k' ↔ (k' = k ∨ memK l k') := by
  unfold memK
  by_cases h : k' = k
  · subst h; simp
  · rw [lookupK_mapSet_ne l k k' v h]; simp [h, memK]

theorem memK_mapDel (l : List (K × V)) (k k' : K) :
    memK (mapDel l k) k' ↔ (k' ≠ k ∧ memK l k') := by
  unfold memK
  by_cases h : k' = k
  · subst h; simp
  · rw [lookupK_mapDel_ne l k k' h]; simp [h, memK]

theorem length_mapSet_mem (l : List (K × V)) (k : K) (v : V) (h : memK l k) :
    (mapSet l k v).length = l.length := by
  induction l with
  | nil => simp [memK, lookupK] at h
  | cons p t ih =>
    obtain ⟨k0, v0⟩ := p
    by_cases h0 : k0 = k
    · simp [mapSet, h0]
    · simp only [memK, lookupK_cons, if_neg h0] at h
      simp [mapSet, h0, ih h]

theorem length_mapSet_not_mem (l : List (K × V)) (k : K) (v : V) (h : ¬ memK l k) :
    (mapSet l k v).length = l.length + 1 := by
  induction l with
  | nil => simp [mapSet]
  | cons p t ih =>
    obtain ⟨k0, v0⟩ := p
    by_cases h0 : k0 = k
    · subst h0; simp [memK, lookupK] at h
    · simp only [memK, lookupK_cons, if_neg h0] at h
      simp [mapSet, h0, ih h]

theorem mapDel_not_mem (l : List (K × V)) (k : K) (h : ¬ memK l k) :
    mapDel l k = l := by
  induction l with
  | nil => simp [mapDel]
  | cons p t ih =>
    obtain ⟨k0, v0⟩ := p
    by_cases h0 : k0 = k
    · subst h0; simp [memK, lookupK] at h
    · simp only [memK, lookupK_cons, if_neg h0] at h
      simp [mapDel, h0, ih h]

theorem length_mapDel_mem (l : List (K × V)) (k : K)
    (hnd : keysNodup l) (h : memK l k) :
    (mapDel l k).length + 1 = l.length := by
  induction l with
  | nil => simp [memK, lookupK] at h
  | cons p t ih =>
    obtain ⟨k0, v0⟩ := p
    simp only [keysNodup, List.map_cons, List.nodup_cons] at hnd
    by_cases h0 : k0 = k
    · subst h0
      have hmem : ¬ memK t k0 := by
        rw [memK_iff_mem_keys]; exact hnd.1
      simp [mapDel, mapDel_not_mem t k0 hmem]
    · simp only [memK, lookupK_cons, if_neg h0] at h
      have := ih hnd.2 h
      simp [mapDel, h0]
      omega

theorem keysNodup_mapSet (l : List (K × V)) (k : K) (v : V) (h : keysNodup l) :
    keysNodup (mapSet l k v) := by
  induction l with
  | nil => simp [mapSet, keysNodup]
  | cons p t ih =>
    obtain ⟨k0, v0⟩ := p
    simp only [keysNodup, List.map_cons, List.nodup_cons] at h
    by_cases h0 : k0 = k
    · subst h0
      simpa [mapSet, keysNodup] using h
    · have ht := ih h.2
      simp only [mapSet, if_neg h0, keysNodup, List.map_cons, List.nodup_cons]
      refine ⟨fun hm => ?_, ht⟩
      rw [← memK_iff_mem_keys] at hm
      rw [memK_mapSet] at hm
      rcases hm with hm | hm
      · exact h0 hm
      · rw [memK_iff_mem_keys] at hm
        exact h.1 hm

theorem keysNodup_mapDel (l : List (K × V)) (k : K) (h : keysNodup l) :
    keysNodup (mapDel l k) := by
  induction l with
  | nil => simp [mapDel, keysNodup]
  | cons p t ih =>
    obtain ⟨k0, v0⟩ := p
    simp only [keysNodup, List.map_cons, List.nodup_cons] at h
    by_cases h0 : k0 = k
    · simp only [mapDel, if_pos h0]
      exact ih h.2
    · simp only [mapDel, if_neg h0, keysNodup, List.map_cons, List.nodup_cons]
      refine ⟨fun hm => ?_, ih h.2⟩
      rw [← memK_iff_mem_keys, memK_mapDel] at hm
      rw [memK_iff_mem_keys] at hm
      exact h.1 hm.2

theorem lookupK_head (k0 : K) (v0 : V) (t : List (K × V)) :
    lookupK ((k0, v0) :: t) k0 = some v0 := by simp

/-- `const numBuckets int8 = 4` -/
def numBuckets : Nat := 4

/-- `const maxBucketIndex int8 = numBuckets - 1` -/
def maxBucketIndex : Nat := numBuckets - 1

/-- `const promoteBase float64 = 0.01`, embedded exactly as a rational. -/
def promoteBase : ℚ := 1 / 100

/-- The `Cache` struct of `lfu.go`: configured size, the frequency index
mapping keys to bucket indexes, and the array of `numBuckets` buckets
(bucket `i` for `i ≥ numBuckets` is a phantom always kept empty; the Go
array has exactly four cells). The mutex and the rng are concurrency
plumbing: the lock serialises operations (each theorem describes one locked
operation) and the rng draw is passed explicitly to `Get`. -/
structure Cache (K V : Type) where
  size : Int
  index : List (K × Nat)
  buckets : Nat → List (K × V)

/-- `New[K, V](size int) *Cache[K, V]`: empty index, empty buckets. -/
def New (K V : Type) (size : Int) : Cache K V :=
  ⟨size, [], fun _ => []⟩

/-- `func (c *Cache[K, V]) Len() int { return len(c.index) }` -/
def Len (c : Cache K V) : Nat := c.index.length

/-- `promote(i, key)`: copy the value into bucket `i+1`, record the new
level in the index, delete from bucket `i`.  The Go read
`c.buckets[i][key]` yields the zero value when `key` is absent; that
(unreachable under the cache invariant) case is embedded as a no-op write. -/
def promote (c : Cache K V) (i : Nat) (k : K) : Cache K V :=
  let hi := match lookupK (c.buckets i) k with
    | some v => mapSet (c.buckets (i + 1)) k v
    | none => c.buckets (i + 1)
  ⟨c.size,
   mapSet c.index k (i + 1),
   fun j => if j = i + 1 then hi else if j = i then mapDel (c.buckets i) k else c.buckets j⟩

/-- `Get(key)`: on a miss return `(zero, false)` without touching the
state; on a hit read the value and promote when
`i == 0 || (i < maxBucketIndex && rng.Float64() < math.Pow(promoteBase, i))`,
with the `Float64` draw passed in as `r`. -/
def Get (c : Cache K V) (k : K) (r : ℚ) : (Option V × Bool) × Cache K V :=
  match lookupK c.index k with
  | none => ((none, false), c)
  | some i =>
    let v := lookupK (c.buckets i) k
    if i = 0 ∨ (i < maxBucketIndex ∧ r < promoteBase ^ i) then
      ((v, true), promote c i k)
    else
      ((v, true), c)

/-- `reset(i, key, value)`: write the value into bucket 0 and, when the key
was at a higher level, delete it from that bucket and reset its level. -/
def reset (c : Cache K V) (i : Nat) (k : K) (v : V) : Cache K V :=
  let b0 : Cache K V :=
    ⟨c.size, c.index, fun j => if j = 0 then mapSet (c.buckets 0) k v else c.buckets j⟩
  if 0 < i then
    ⟨b0.size,
     mapSet b0.index k 0,
     fun j => if j = i then mapDel (b0.buckets i) k else b0.buckets j⟩
  else b0

/-- `add(k, v)`: insert at level 0. -/
def add (c : Cache K V) (k : K) (v : V) : Cache K V :=
  ⟨c.size,
   mapSet c.index k 0,
   fun j => if j = 0 then mapSet (c.buckets 0) k v else c.buckets j⟩

/-- The `for _, bucket := range c.buckets` loop of `evict`: scan the given
bucket indexes in order; from the first non-empty bucket delete the first
entry of the iteration (the head of the association list) from both the
index and the bucket, then return. -/
def evictLoop (c : Cache K V) : List Nat → Cache K V
  | [] => c
  | i :: is =>
    match c.buckets i with
    | [] => evictLoop c is
    | (k, _) :: _ =>
      ⟨c.size,
       mapDel c.index k,
       fun j => if j = i then mapDel (c.buckets i) k else c.buckets j⟩

/-- `evict()`: scan the four buckets in ascending array order. -/
def evict (c : Cache K V) : Cache K V := evictLoop c [0, 1, 2, 3]

/-- `Set(key, value)`: reset an existing key; otherwise evict when
`c.size > 0 && len(c.index) == c.size`, then add at level 0. -/
def Set (c : Cache K V) (k : K) (v : V) : Cache K V :=
  match lookupK c.index k with
  | some i => reset c i k v
  | none =>
    let c1 := if 0 < c.size ∧ (c.index.length : Int) = c.size then evict c else c
    add c1 k v

/-- `Remove(key)`: delete an existing key from the index and its bucket. -/
def Remove (c : Cache K V) (k : K) : Cache K V :=
  match lookupK c.index k with
  | some i =>
    ⟨c.size,
     mapDel c.index k,
     fun j => if j = i then mapDel (c.buckets i) k else c.buckets j⟩
  | none => c

/-- Total number of entries held by the four buckets. -/
def sumB (c : Cache K V) : Nat :=
  (c.buckets 0).length + (c.buckets 1).length + (c.buckets 2).length + (c.buckets 3).length

/-- Well-formedness of a cache state: distinct keys in the index and in
each bucket, a key sits in bucket `i` exactly when the index records level
`i` for it, recorded levels are in range, the buckets hold exactly the
indexed entries, and the configured capacity is respected. -/
structure WF (c : Cache K V) : Prop where
  nodupIndex : keysNodup c.index
  nodupBucket : ∀ i, keysNodup (c.buckets i)
  indexed : ∀ k i, lookupK c.index k = some i ↔ memK (c.buckets i) k
  levelLt : ∀ k i, lookupK c.index k = some i → i < numBuckets
  sumEq : sumB c = c.index.length
  sizeBound : 0 < c.size → (c.index.length : Int) ≤ c.size

theorem memK_of_lookup {l : List (K × V)} {k : K} {v : V}
    (h : lookupK l k = some v) : memK l k := by
  simp [memK, h]

theorem lookupK_mapDel_none {l : List (K × V)} {k k0 : K}
    (h : lookupK l k = none) : lookupK (mapDel l k0) k = none := by
  by_cases hk : k = k0
  · subst hk; simp
  · rw [lookupK_mapDel_ne l k0 k hk]; exact h

/-- `New` produces a well-formed cache. -/
theorem wf_new (size : Int) : WF (New K V size) := by
  refine ⟨?_, ?_, ?_, ?_, ?_, ?_⟩
  · simp [New, keysNodup]
  · intro i; simp [New, keysNodup]
  · intro k i; simp [New, memK]
  · intro k i h; simp [New] at h
  · simp [New, sumB]
  · intro h; simp [New] at h ⊢; omega

theorem promote_eq {c : Cache K V} {i : Nat} {k : K} {v : V}
    (hv : lookupK (c.buckets i) k = some v) :
    promote c i k =
      ⟨c.size, mapSet c.index k (i + 1),
       fun j => if j = i + 1 then mapSet (c.buckets (i + 1)) k v
                else if j = i then mapDel (c.buckets i) k else c.buckets j⟩ := by
  simp [promote, hv]

theorem reset_pos_eq {c : Cache K V} {i : Nat} (hi : 0 < i) (k : K) (v : V) :
    reset c i k v =
      ⟨c.size, mapSet c.index k 0,
       fun j => if j = 0 then mapSet (c.buckets 0) k v
                else if j = i then mapDel (c.buckets i) k else c.buckets j⟩ := by
  have hne : i ≠ 0 := Nat.pos_iff_ne_zero.mp hi
  simp only [reset, if_pos hi]
  refine congrArg _ ?_
  funext j
  by_cases hj : j = i
  · subst hj; simp [hne]
  · by_cases hj0 : j = 0 <;> simp [hj, hj0, hne, Ne.symm hne]

theorem reset_zero_eq (c : Cache K V) (k : K) (v : V) :
    reset c 0 k v =
      ⟨c.size, c.index,
       fun j => if j = 0 then mapSet (c.buckets 0) k v else c.buckets j⟩ := by
  simp [reset]

/-- Moving key `k` from bucket `i` to bucket `t` while recording level `t`
(this is the common shape of `promote` and of `reset` on a higher level)
preserves well-formedness and leaves `Len` unchanged. -/
theorem wf_move {c : Cache K V} {k : K} {i t : Nat} (v : V)
    (hwf : WF c) (hik : lookupK c.index k = some i)
    (ht : t < numBuckets) (hti : t ≠ i) :
    WF (⟨c.size, mapSet c.index k t,
         fun j => if j = t then mapSet (c.buckets t) k v
                  else if j = i then mapDel (c.buckets i) k else c.buckets j⟩ : Cache K V) := by
  have hmemI : memK c.index k := memK_of_lookup hik
  have hmemi : memK (c.buckets i) k := (hwf.indexed k i).mp hik
  have hmemt : ¬ memK (c.buckets t) k := by
    intro hm
    have := (hwf.indexed k t).mpr hm
    rw [hik] at this
    exact hti (Option.some.inj this).symm
  have hiLt : i < numBuckets := hwf.levelLt k i hik
  have hbj : ∀ j, (⟨c.size, mapSet c.index k t,
      fun j => if j = t then mapSet (c.buckets t) k v
               else if j = i then mapDel (c.buckets i) k else c.buckets j⟩ : Cache K V).buckets j
      = if j = t then mapSet (c.buckets t) k v
        else if j = i then mapDel (c.buckets i) k else c.buckets j := fun _ => rfl
  refine ⟨?_, ?_, ?_, ?_, ?_, ?_⟩
  · exact keysNodup_mapSet _ _ _ hwf.nodupIndex
  · intro j
    rw [hbj]
    by_cases hj : j = t
    · rw [if_pos hj]
      exact keysNodup_mapSet _ _ _ (hwf.nodupBucket t)
    · rw [if_neg hj]
      by_cases hj' : j = i
      · rw [if_pos hj']
        exact keysNodup_mapDel _ _ (hwf.nodupBucket i)
      · rw [if_neg hj']
        exact hwf.nodupBucket j
  · intro k' j
    rw [hbj]
    by_cases hk : k' = k
    · subst hk
      rw [lookupK_mapSet_self]
      by_cases hj : j = t
      · rw [if_pos hj, hj]
        simp [memK_mapSet]
      · rw [if_neg hj]
        constructor
        · intro h
          exact absurd (Option.some.inj h).symm hj
        · intro hm
          by_cases hj' : j = i
          · rw [if_pos hj'] at hm
            rw [memK_mapDel] at hm
            exact absurd rfl hm.1
          · rw [if_neg hj'] at hm
            have := (hwf.indexed k' j).mpr hm
            rw [hik] at this
            exact absurd (Option.some.inj this) (fun h => hj' h.symm)
    · rw [lookupK_mapSet_ne _ _ _ _ hk]
      by_cases hj : j = t
      · rw [if_pos hj, memK_mapSet, hj]
        constructor
        · intro h
          exact Or.inr ((hwf.indexed k' t).mp (hj ▸ h))
        · rintro (h | h)
          · exact absurd h hk
          · exact hj ▸ ((hwf.indexed k' t).mpr h)
      · rw [if_neg hj]
        by_cases hj' : j = i
        · rw [if_pos hj', memK_mapDel, hj']
          constructor
          · intro h
            exact ⟨hk, (hwf.indexed k' i).mp (hj' ▸ h)⟩
          · intro h
            exact hj' ▸ ((hwf.indexed k' i).mpr h.2)
        · rw [if_neg hj']
          exact hwf.indexed k' j
  · intro k' j h
    by_cases hk : k' = k
    · subst hk
      rw [show (⟨c.size, mapSet c.index k' t, _⟩ : Cache K V).index = mapSet c.index k' t from rfl,
        lookupK_mapSet_self] at h
      rw [← Option.some.inj h]
      exact ht
    · rw [show (⟨c.size, mapSet c.index k t, _⟩ : Cache K V).index = mapSet c.index k t from rfl,
        lookupK_mapSet_ne _ _ _ _ hk] at h
      exact hwf.levelLt k' j h
  · have hlen : (mapSet c.index k t).length = c.index.length :=
      length_mapSet_mem _ _ _ hmemI
    have hlt : (mapSet (c.buckets t) k v).length = (c.buckets t).length + 1 :=
      length_mapSet_not_mem _ _ _ hmemt
    have hli : (mapDel (c.buckets i) k).length + 1 = (c.buckets i).length :=
      length_mapDel_mem _ _ (hwf.nodupBucket i) hmemi
    have hsum := hwf.sumEq
    show (if (0:Nat) = t then mapSet (c.buckets t) k v
          else if (0:Nat) = i then mapDel (c.buckets i) k else c.buckets 0).length
        + (if (1:Nat) = t then mapSet (c.buckets t) k v
          else if (1:Nat) = i then mapDel (c.buckets i) k else c.buckets 1).length
        + (if (2:Nat) = t then mapSet (c.buckets t) k v
          else if (2:Nat) = i then mapDel (c.buckets i) k else c.buckets 2).length
        + (if (3:Nat) = t then mapSet (c.buckets t) k v
          else if (3:Nat) = i then mapDel (c.buckets i) k else c.buckets 3).length
        = (mapSet c.index k t).length
    rw [hlen]
    simp only [sumB] at hsum
    have h4 : numBuckets = 4 := rfl
    rw [h4] at ht hiLt
    have hti' : ¬ (t = i) := hti
    interval_cases t <;> interval_cases i <;> simp_all <;> omega
  · intro hpos
    show ((mapSet c.index k t).length : Int) ≤ c.size
    rw [length_mapSet_mem _ _ _ hmemI]
    exact hwf.sizeBound hpos

/-- Deleting an indexed entry from both the index and its bucket (the
common shape of `evict` and `Remove`) preserves well-formedness and
shrinks `Len` by one. -/
theorem wf_del {c : Cache K V} {k : K} {i : Nat}
    (hwf : WF c) (hik : lookupK c.index k = some i) :
    WF (⟨c.size, mapDel c.index k,
         fun j => if j = i then mapDel (c.buckets i) k else c.buckets j⟩ : Cache K V)
    ∧ (mapDel c.index k).length + 1 = c.index.length := by
  have hmemI : memK c.index k := memK_of_lookup hik
  have hmemi : memK (c.buckets i) k := (hwf.indexed k i).mp hik
  have hiLt : i < numBuckets := hwf.levelLt k i hik
  have hlen : (mapDel c.index k).length + 1 = c.index.length :=
    length_mapDel_mem _ _ hwf.nodupIndex hmemI
  have hbj : ∀ j, (⟨c.size, mapDel c.index k,
      fun j => if j = i then mapDel (c.buckets i) k else c.buckets j⟩ : Cache K V).buckets j
      = if j = i then mapDel (c.buckets i) k else c.buckets j := fun _ => rfl
  refine ⟨⟨?_, ?_, ?_, ?_, ?_, ?_⟩, hlen⟩
  · exact keysNodup_mapDel _ _ hwf.nodupIndex
  · intro j
    rw [hbj]
    by_cases hj : j = i
    · rw [if_pos hj]
      exact keysNodup_mapDel _ _ (hwf.nodupBucket i)
    · rw [if_neg hj]
      exact hwf.nodupBucket j
  · intro k' j
    rw [hbj]
    by_cases hk : k' = k
    · subst hk
      rw [show (⟨c.size, mapDel c.index k', _⟩ : Cache K V).index = mapDel c.index k' from rfl,
        lookupK_mapDel_self]
      constructor
      · intro h; exact absurd h (by simp)
      · intro hm
        by_cases hj : j = i
        · rw [if_pos hj] at hm
          rw [memK_mapDel] at hm
          exact absurd rfl hm.1
        · rw [if_neg hj] at hm
          have := (hwf.indexed k' j).mpr hm
          rw [hik] at this
          exact absurd (Option.some.inj this) (fun h => hj h.symm)
    · rw [show (⟨c.size, mapDel c.index k, _⟩ : Cache K V).index = mapDel c.index k from rfl,
        lookupK_mapDel_ne _ _ _ hk]
      by_cases hj : j = i
      · rw [if_pos hj, memK_mapDel, hj]
        constructor
        · intro h
          exact ⟨hk, (hwf.indexed k' i).mp (hj ▸ h)⟩
        · intro h
          exact hj ▸ ((hwf.indexed k' i).mpr h.2)
      · rw [if_neg hj]
        exact hwf.indexed k' j
  · intro k' j h
    by_cases hk : k' = k
    · subst hk
      rw [show (⟨c.size, mapDel c.index k', _⟩ : Cache K V).index = mapDel c.index k' from rfl,
        lookupK_mapDel_self] at h
      exact absurd h (by simp)
    · rw [show (⟨c.size, mapDel c.index k, _⟩ : Cache K V).index = mapDel c.index k from rfl,
        lookupK_mapDel_ne _ _ _ hk] at h
      exact hwf.levelLt k' j h
  · have hli : (mapDel (c.buckets i) k).length + 1 = (c.buckets i).length :=
      length_mapDel_mem _ _ (hwf.nodupBucket i) hmemi
    have hsum := hwf.sumEq
    show (if (0:Nat) = i then mapDel (c.buckets i) k else c.buckets 0).length
        + (if (1:Nat) = i then mapDel (c.buckets i) k else c.buckets 1).length
        + (if (2:Nat) = i then mapDel (c.buckets i) k else c.buckets 2).length
        + (if (3:Nat) = i then mapDel (c.buckets i) k else c.buckets 3).length
        = (mapDel c.index k).length
    simp only [sumB] at hsum
    have h4 : numBuckets = 4 := rfl
    rw [h4] at hiLt
    interval_cases i <;> simp_all <;> omega
  · intro hpos
    show ((mapDel c.index k).length : Int) ≤ c.size
    have := hwf.sizeBound hpos
    omega

theorem Get_miss {c : Cache K V} {k : K} (r : ℚ) (h : lookupK c.index k = none) :
    Get c k r = ((none, false), c) := by
  simp [Get, h]

theorem Get_hit_promote {c : Cache K V} {k : K} {i : Nat} (r : ℚ)
    (h : lookupK c.index k = some i)
    (hc : i = 0 ∨ (i < maxBucketIndex ∧ r < promoteBase ^ i)) :
    Get c k r = ((lookupK (c.buckets i) k, true), promote c i k) := by
  simp only [Get, h]
  rw [if_pos hc]

theorem Get_hit_stay {c : Cache K V} {k : K} {i : Nat} (r : ℚ)
    (h : lookupK c.index k = some i)
    (hc : ¬ (i = 0 ∨ (i < maxBucketIndex ∧ r < promoteBase ^ i))) :
    Get c k r = ((lookupK (c.buckets i) k, true), c) := by
  simp only [Get, h]
  rw [if_neg hc]

theorem Set_present {c : Cache K V} {k : K} {i : Nat} (v : V)
    (h : lookupK c.index k = some i) :
    Set c k v = reset c i k v := by
  simp [Set, h]

theorem Set_new {c : Cache K V} {k : K} (v : V) (h : lookupK c.index k = none) :
    Set c k v =
      add (if 0 < c.size ∧ (c.index.length : Int) = c.size then evict c else c) k v := by
  simp [Set, h]

/-- `reset` on a key recorded at level 0 preserves well-formedness and
leaves `Len` unchanged. -/
theorem wf_reset_zero {c : Cache K V} {k : K} (v : V)
    (hwf : WF c) (hik : lookupK c.index k = some 0) :
    WF (reset c 0 k v) := by
  rw [reset_zero_eq]
  have hmem0 : memK (c.buckets 0) k := (hwf.indexed k 0).mp hik
  have hbj : ∀ j, (⟨c.size, c.index,
      fun j => if j = 0 then mapSet (c.buckets 0) k v else c.buckets j⟩ : Cache K V).buckets j
      = if j = 0 then mapSet (c.buckets 0) k v else c.buckets j := fun _ => rfl
  refine ⟨hwf.nodupIndex, ?_, ?_, hwf.levelLt, ?_, hwf.sizeBound⟩
  · intro j
    rw [hbj]
    by_cases hj : j = 0
    · rw [if_pos hj]
      exact keysNodup_mapSet _ _ _ (hwf.nodupBucket 0)
    · rw [if_neg hj]
      exact hwf.nodupBucket j
  · intro k' j
    rw [hbj]
    by_cases hj : j = 0
    · rw [if_pos hj, memK_mapSet, hj]
      constructor
      · intro h
        exact Or.inr ((hwf.indexed k' 0).mp (hj ▸ h))
      · rintro (h | h)
        · subst h; exact hj ▸ hik
        · exact hj ▸ ((hwf.indexed k' 0).mpr h)
    · rw [if_neg hj]
      exact hwf.indexed k' j
  · have hl0 : (mapSet (c.buckets 0) k v).length = (c.buckets 0).length :=
      length_mapSet_mem _ _ _ hmem0
    have hsum := hwf.sumEq
    show (if (0:Nat) = 0 then mapSet (c.buckets 0) k v else c.buckets 0).length
        + (if (1:Nat) = 0 then mapSet (c.buckets 0) k v else c.buckets 1).length
        + (if (2:Nat) = 0 then mapSet (c.buckets 0) k v else c.buckets 2).length
        + (if (3:Nat) = 0 then mapSet (c.buckets 0) k v else c.buckets 3).length
        = c.index.length
    simp only [sumB] at hsum
    simp [hl0, hsum]

/-- `reset` preserves well-formedness. -/
theorem wf_reset {c : Cache K V} {k : K} {i : Nat} (v : V)
    (hwf : WF c) (hik : lookupK c.index k = some i) :
    WF (reset c i k v) := by
  by_cases hi : 0 < i
  · rw [reset_pos_eq hi]
    exact wf_move v hwf hik (by simp [numBuckets]) (Nat.pos_iff_ne_zero.mp hi).symm
  · have : i = 0 := by omega
    subst this
    exact wf_reset_zero v hwf hik

/-- `promote` from a level whose successor is in range preserves
well-formedness. -/
theorem wf_promote {c : Cache K V} {k : K} {i : Nat}
    (hwf : WF c) (hik : lookupK c.index k = some i) (hi : i + 1 < numBuckets) :
    WF (promote c i k) := by
  have hmem : memK (c.buckets i) k := (hwf.indexed k i).mp hik
  obtain ⟨v, hv⟩ := Option.isSome_iff_exists.mp hmem
  rw [promote_eq hv]
  exact wf_move v hwf hik hi (Nat.succ_ne_self i)

/-- `Get` preserves well-formedness. -/
theorem wf_get {c : Cache K V} (k : K) (r : ℚ) (hwf : WF c) : WF (Get c k r).2 := by
  cases h : lookupK c.index k with
  | none => rw [Get_miss r h]; exact hwf
  | some i =>
    by_cases hc : i = 0 ∨ (i < maxBucketIndex ∧ r < promoteBase ^ i)
    · rw [Get_hit_promote r h hc]
      have hi : i + 1 < numBuckets := by
        rcases hc with hc | hc
        · subst hc; simp [numBuckets]
        · have := hc.1
          simp [maxBucketIndex, numBuckets] at this ⊢
          omega
      exact wf_promote hwf h hi
    · rw [Get_hit_stay r h hc]
      exact hwf

/-- `add` of an absent key (with room left) preserves well-formedness. -/
theorem wf_add {c : Cache K V} {k : K} (v : V)
    (hwf : WF c) (hik : lookupK c.index k = none)
    (hcap : 0 < c.size → (c.index.length : Int) + 1 ≤ c.size) :
    WF (add c k v) := by
  have hmemI : ¬ memK c.index k := by simp [memK, hik]
  have hmem0 : ¬ memK (c.buckets 0) k := by
    intro hm
    have := (hwf.indexed k 0).mpr hm
    rw [hik] at this
    exact Option.noConfusion this
  have hbj : ∀ j, (add c k v).buckets j
      = if j = 0 then mapSet (c.buckets 0) k v else c.buckets j := fun _ => rfl
  have hidx : (add c k v).index = mapSet c.index k 0 := rfl
  refine ⟨?_, ?_, ?_, ?_, ?_, ?_⟩
  · rw [hidx]; exact keysNodup_mapSet _ _ _ hwf.nodupIndex
  · intro j
    rw [hbj]
    by_cases hj : j = 0
    · rw [if_pos hj]
      exact keysNodup_mapSet _ _ _ (hwf.nodupBucket 0)
    · rw [if_neg hj]
      exact hwf.nodupBucket j
  · intro k' j
    rw [hbj, hidx]
    by_cases hk : k' = k
    · subst hk
      rw [lookupK_mapSet_self]
      by_cases hj : j = 0
      · rw [if_pos hj, memK_mapSet, hj]
        simp
      · rw [if_neg hj]
        constructor
        · intro h
          exact absurd (Option.some.inj h).symm hj
        · intro hm
          have := (hwf.indexed k' j).mpr hm
          rw [hik] at this
          exact Option.noConfusion this
    · rw [lookupK_mapSet_ne _ _ _ _ hk]
      by_cases hj : j = 0
      · rw [if_pos hj, memK_mapSet, hj]
        constructor
        · intro h
          exact Or.inr ((hwf.indexed k' 0).mp (hj ▸ h))
        · rintro (h | h)
          · exact absurd h hk
          · exact hj ▸ ((hwf.indexed k' 0).mpr h)
      · rw [if_neg hj]
        exact hwf.indexed k' j
  · intro k' j h
    rw [hidx] at h
    by_cases hk : k' = k
    · subst hk
      rw [lookupK_mapSet_self] at h
      rw [← Option.some.inj h]
      simp [numBuckets]
    · rw [lookupK_mapSet_ne _ _ _ _ hk] at h
      exact hwf.levelLt k' j h
  · have hl0 : (mapSet (c.buckets 0) k v).length = (c.buckets 0).length + 1 :=
      length_mapSet_not_mem _ _ _ hmem0
    have hlen : (mapSet c.index k 0).length = c.index.length + 1 :=
      length_mapSet_not_mem _ _ _ hmemI
    have hsum := hwf.sumEq
    show (if (0:Nat) = 0 then mapSet (c.buckets 0) k v else c.buckets 0).length
        + (if (1:Nat) = 0 then mapSet (c.buckets 0) k v else c.buckets 1).length
        + (if (2:Nat) = 0 then mapSet (c.buckets 0) k v else c.buckets 2).length
        + (if (3:Nat) = 0 then mapSet (c.buckets 0) k v else c.buckets 3).length
        = (mapSet c.index k 0).length
    simp only [sumB] at hsum
    simp [hl0, hlen, hsum]
    omega
  · intro hpos
    show ((mapSet c.index k 0).length : Int) ≤ c.size
    rw [length_mapSet_not_mem _ _ _ hmemI]
    have := hcap hpos
    push_cast
    omega

theorem len_add {c : Cache K V} {k : K} (v : V) (hik : lookupK c.index k = none) :
    (add c k v).index.length = c.index.length + 1 := by
  have hmemI : ¬ memK c.index k := by simp [memK, hik]
  exact length_mapSet_not_mem _ _ _ hmemI

/-- On a non-empty well-formed cache, `evict` deletes exactly the head
entry of the lowest non-empty bucket from both that bucket and the index. -/
theorem evict_cases {c : Cache K V} (hwf : WF c) (hne : c.index ≠ []) :
    ∃ i0 k0 v0 t0, i0 < numBuckets ∧ c.buckets i0 = (k0, v0) :: t0 ∧
      (∀ j, j < i0 → c.buckets j = []) ∧
      evict c = ⟨c.size, mapDel c.index k0,
        fun j => if j = i0 then mapDel (c.buckets i0) k0 else c.buckets j⟩ := by
  have hlen : c.index.length ≠ 0 := fun h => hne (List.length_eq_zero.mp h)
  cases h0 : c.buckets 0 with
  | cons p t =>
    obtain ⟨k0, v0⟩ := p
    refine ⟨0, k0, v0, t, by simp [numBuckets], h0, by omega, ?_⟩
    simp [evict, evictLoop, h0]
  | nil =>
  cases h1 : c.buckets 1 with
  | cons p t =>
    obtain ⟨k0, v0⟩ := p
    refine ⟨1, k0, v0, t, by simp [numBuckets], h1, ?_, ?_⟩
    · intro j hj
      have : j = 0 := by omega
      subst this; exact h0
    · simp [evict, evictLoop, h0, h1]
  | nil =>
  cases h2 : c.buckets 2 with
  | cons p t =>
    obtain ⟨k0, v0⟩ := p
    refine ⟨2, k0, v0, t, by simp [numBuckets], h2, ?_, ?_⟩
    · intro j hj
      interval_cases j
      · exact h0
      · exact h1
    · simp [evict, evictLoop, h0, h1, h2]
  | nil =>
  cases h3 : c.buckets 3 with
  | cons p t =>
    obtain ⟨k0, v0⟩ := p
    refine ⟨3, k0, v0, t, by simp [numBuckets], h3, ?_, ?_⟩
    · intro j hj
      interval_cases j
      · exact h0
      · exact h1
      · exact h2
    · simp [evict, evictLoop, h0, h1, h2, h3]
  | nil =>
    exfalso
    have hsum := hwf.sumEq
    simp [sumB, h0, h1, h2, h3] at hsum
    exact hlen hsum.symm

/-- `evict` on a non-empty well-formed cache preserves well-formedness,
shrinks the index by one entry, and keeps absent keys absent. -/
theorem wf_evict {c : Cache K V} (hwf : WF c) (hne : c.index ≠ []) :
    WF (evict c) ∧ (evict c).index.length + 1 = c.index.length ∧
      (∀ k, lookupK c.index k = none → lookupK (evict c).index k = none) := by
  obtain ⟨i0, k0, v0, t0, hi0, hb, _hmin, he⟩ := evict_cases hwf hne
  have hmem : memK (c.buckets i0) k0 := by
    rw [hb]; exact memK_of_lookup (lookupK_head k0 v0 t0)
  have hik : lookupK c.index k0 = some i0 := (hwf.indexed k0 i0).mpr hmem
  obtain ⟨hwf', hlen⟩ := wf_del hwf hik
  refine ⟨he ▸ hwf', ?_, ?_⟩
  · rw [he]; exact hlen
  · intro k hk
    rw [he]
    exact lookupK_mapDel_none hk

/-- `Set` preserves well-formedness. -/
theorem wf_set {c : Cache K V} (k : K) (v : V) (hwf : WF c) : WF (Set c k v) := by
  cases h : lookupK c.index k with
  | some i =>
    rw [Set_present v h]
    exact wf_reset v hwf h
  | none =>
    rw [Set_new v h]
    by_cases hcond : 0 < c.size ∧ (c.index.length : Int) = c.size
    · rw [if_pos hcond]
      have hne : c.index ≠ [] := by
        intro hnil
        rw [hnil] at hcond
        simp at hcond
        omega
      obtain ⟨hwf', hlen, habs⟩ := wf_evict hwf hne
      refine wf_add v hwf' (habs k h) ?_
      intro hpos
      have hsz : (evict c).size = c.size := by
        obtain ⟨i0, k0, v0, t0, _, _, _, he⟩ := evict_cases hwf hne
        rw [he]
      rw [hsz] at hpos ⊢
      have := hcond.2
      omega
    · rw [if_neg hcond]
      refine wf_add v hwf h ?_
      intro hpos
      have hb := hwf.sizeBound hpos
      have : (c.index.length : Int) ≠ c.size := fun heq => hcond ⟨hpos, heq⟩
      omega

/-- `Remove` preserves well-formedness. -/
theorem wf_remove {c : Cache K V} (k : K) (hwf : WF c) : WF (Remove c k) := by
  cases h : lookupK c.index k with
  | some i =>
    have : Remove c k = ⟨c.size, mapDel c.index k,
        fun j => if j = i then mapDel (c.buckets i) k else c.buckets j⟩ := by
      simp [Remove, h]
    rw [this]
    exact (wf_del hwf h).1
  | none =>
    have : Remove c k = c := by simp [Remove, h]
    rw [this]
    exact hwf

/-- States reachable from `New` through the public operations. -/
inductive Reachable : Cache K V → Prop
  | new (size : Int) : Reachable (New K V size)
  | get (c : Cache K V) (k : K) (r : ℚ) : Reachable c → Reachable (Get c k r).2
  | set (c : Cache K V) (k : K) (v : V) : Reachable c → Reachable (Set c k v)
  | remove (c : Cache K V) (k : K) : Reachable c → Reachable (Remove c k)

/-- Every reachable state is well-formed. -/
theorem wf_reachable {c : Cache K V} (h : Reachable c) : WF c := by
  induction h with
  | new size => exact wf_new size
  | get c k r _ ih => exact wf_get k r ih
  | set c k v _ ih => exact wf_set k v ih
  | remove c k _ ih => exact wf_remove k ih

theorem size_evictLoop (c : Cache K V) (L : List Nat) : (evictLoop c L).size = c.size := by
  induction L with
  | nil => rfl
  | cons i is ih =>
    cases h : c.buckets i with
    | nil => simp [evictLoop, h, ih]
    | cons p t => obtain ⟨k0, v0⟩ := p; simp [evictLoop, h]

theorem size_set (c : Cache K V) (k : K) (v : V) : (Set c k v).size = c.size := by
  cases h : lookupK c.index k with
  | some i =>
    rw [Set_present v h]
    by_cases hi : 0 < i
    · rw [reset_pos_eq hi]
    · have : i = 0 := by omega
      subst this
      rw [reset_zero_eq]
  | none =>
    rw [Set_new v h]
    by_cases hcond : 0 < c.size ∧ (c.index.length : Int) = c.size
    · rw [if_pos hcond]
      show (evict c).size = c.size
      exact size_evictLoop c _
    · rw [if_neg hcond]
      rfl

/-- `reset` leaves every other key untouched, in the index and in every
bucket. -/
theorem reset_frame (c : Cache K V) (i : Nat) (k : K) (v : V) (k' : K) (hk : k' ≠ k) :
    lookupK (reset c i k v).index k' = lookupK c.index k' ∧
    ∀ j, lookupK ((reset c i k v).buckets j) k' = lookupK (c.buckets j) k' := by
  by_cases hi : 0 < i
  · rw [reset_pos_eq hi]
    refine ⟨lookupK_mapSet_ne _ _ _ _ hk, ?_⟩
    intro j
    show lookupK (if j = 0 then mapSet (c.buckets 0) k v
      else if j = i then mapDel (c.buckets i) k else c.buckets j) k' = _
    by_cases hj : j = 0
    · rw [if_pos hj, hj, lookupK_mapSet_ne _ _ _ _ hk]
    · rw [if_neg hj]
      by_cases hj' : j = i
      · rw [if_pos hj', hj', lookupK_mapDel_ne _ _ _ hk]
      · rw [if_neg hj']
  · have : i = 0 := by omega
    subst this
    rw [reset_zero_eq]
    refine ⟨rfl, ?_⟩
    intro j
    show lookupK (if j = 0 then mapSet (c.buckets 0) k v else c.buckets j) k' = _
    by_cases hj : j = 0
    · rw [if_pos hj, hj, lookupK_mapSet_ne _ _ _ _ hk]
    · rw [if_neg hj]

/-- `add` leaves every other key untouched. -/
theorem add_frame (c : Cache K V) (k : K) (v : V) (k' : K) (hk : k' ≠ k) :
    lookupK (add c k v).index k' = lookupK c.index k' ∧
    ∀ j, lookupK ((add c k v).buckets j) k' = lookupK (c.buckets j) k' := by
  refine ⟨lookupK_mapSet_ne _ _ _ _ hk, ?_⟩
  intro j
  show lookupK (if j = 0 then mapSet (c.buckets 0) k v else c.buckets j) k' = _
  by_cases hj : j = 0
  · rw [if_pos hj, hj, lookupK_mapSet_ne _ _ _ _ hk]
  · rw [if_neg hj]

/-- After any `Set`, the key just written is recorded at level 0 and its
value sits in bucket 0. -/
theorem set_self (c : Cache K V) (k : K) (v : V) :
    lookupK (Set c k v).index k = some 0 ∧
    lookupK ((Set c k v).buckets 0) k = some v := by
  cases h : lookupK c.index k with
  | some i =>
    rw [Set_present v h]
    by_cases hi : 0 < i
    · rw [reset_pos_eq hi]
      constructor
      · exact lookupK_mapSet_self _ _ _
      · show lookupK (if (0:Nat) = 0 then mapSet (c.buckets 0) k v
          else if (0:Nat) = i then mapDel (c.buckets i) k else c.buckets 0) k = some v
        simp
    · have : i = 0 := by omega
      subst this
      rw [reset_zero_eq]
      constructor
      · exact h
      · show lookupK (if (0:Nat) = 0 then mapSet (c.buckets 0) k v else c.buckets 0) k = some v
        simp
  | none =>
    rw [Set_new v h]
    exact ⟨lookupK_mapSet_self _ _ _, lookupK_mapSet_self _ _ _⟩

/-- `Set` immediately followed by `Get` of the same key returns the value
just written, in any state. -/
theorem get_after_set (c : Cache K V) (k : K) (v : V) (r : ℚ) :
    (Get (Set c k v) k r).1 = (some v, true) := by
  obtain ⟨hidx, hb0⟩ := set_self c k v
  rw [Get_hit_promote r hidx (Or.inl rfl), hb0]

/-- A `Set` of a key already present keeps the index size unchanged. -/
theorem len_set_present {c : Cache K V} {k : K} {i : Nat} (v : V)
    (h : lookupK c.index k = some i) :
    Len (Set c k v) = Len c := by
  have hmemI : memK c.index k := memK_of_lookup h
  rw [Set_present v h]
  by_cases hi : 0 < i
  · rw [reset_pos_eq hi]
    exact length_mapSet_mem _ _ _ hmemI
  · have : i = 0 := by omega
    subst this
    rw [reset_zero_eq]
    rfl

/-- When the eviction condition is false (in particular whenever
`size ≤ 0`), `Set` leaves every other key untouched. -/
theorem set_frame_noevict {c : Cache K V} {k : K} (v : V)
    (h : lookupK c.index k = none)
    (hcond : ¬ (0 < c.size ∧ (c.index.length : Int) = c.size)) (k' : K) (hk : k' ≠ k) :
    lookupK (Set c k v).index k' = lookupK c.index k' ∧
    ∀ j, lookupK ((Set c k v).buckets j) k' = lookupK (c.buckets j) k' := by
  rw [Set_new v h, if_neg hcond]
  exact add_frame c k v k' hk

/-- A `Set` of an existing key leaves every other key untouched. -/
theorem set_frame_present {c : Cache K V} {k : K} {i : Nat} (v : V)
    (h : lookupK c.index k = some i) (k' : K) (hk : k' ≠ k) :
    lookupK (Set c k v).index k' = lookupK c.index k' ∧
    ∀ j, lookupK ((Set c k v).buckets j) k' = lookupK (c.buckets j) k' := by
  rw [Set_present v h]
  exact reset_frame c i k v k' hk

/-- On a cache whose size is not positive, `Set` leaves every other key
untouched (the eviction condition can never fire). -/
theorem set_frame_nopos {c : Cache K V} (hsz : ¬ 0 < c.size) (k k' : K) (w : V)
    (hk : k' ≠ k) :
    lookupK (Set c k w).index k' = lookupK c.index k' ∧
    ∀ j, lookupK ((Set c k w).buckets j) k' = lookupK (c.buckets j) k' := by
  cases h : lookupK c.index k with
  | some i => exact set_frame_present w h k' hk
  | none => exact set_frame_noevict w h (fun hc => hsz hc.1) k' hk

/-- Fold a list of insertions over a cache. -/
def setAll (c : Cache K V) (kvs : List (K × V)) : Cache K V :=
  kvs.foldl (fun c p => Set c p.1 p.2) c

theorem setAll_cons (c : Cache K V) (p : K × V) (kvs : List (K × V)) :
    setAll c (p :: kvs) = setAll (Set c p.1 p.2) kvs := rfl

theorem size_setAll (kvs : List (K × V)) (c : Cache K V) :
    (setAll c kvs).size = c.size := by
  induction kvs generalizing c with
  | nil => rfl
  | cons p tl ih =>
    rw [setAll_cons, ih, size_set]

theorem setAll_frame (kvs : List (K × V)) (c : Cache K V) (k : K)
    (hsz : ¬ 0 < c.size) (hout : ∀ p ∈ kvs, p.1 ≠ k) :
    lookupK (setAll c kvs).index k = lookupK c.index k ∧
    ∀ j, lookupK ((setAll c kvs).buckets j) k = lookupK (c.buckets j) k := by
  induction kvs generalizing c with
  | nil => exact ⟨rfl, fun _ => rfl⟩
  | cons p tl ih =>
    rw [setAll_cons]
    have hk : k ≠ p.1 := fun he => hout p (List.mem_cons_self p tl) he.symm
    obtain ⟨h1, h2⟩ := set_frame_nopos hsz p.1 k p.2 hk
    have hsz' : ¬ 0 < (Set c p.1 p.2).size := by rw [size_set]; exact hsz
    obtain ⟨g1, g2⟩ := ih (Set c p.1 p.2) hsz'
      (fun q hq => hout q (List.mem_cons_of_mem p hq))
    exact ⟨g1.trans h1, fun j => (g2 j).trans (h2 j)⟩

/-- Inserting a list of fresh, pairwise-distinct keys into a cache with
negative size retains all of them at level 0 and grows the index by the
list length: with a negative size, nothing is ever evicted. -/
theorem setAll_negative (kvs : List (K × V)) (c : Cache K V)
    (hc : c.size < 0) (habs : ∀ p ∈ kvs, lookupK c.index p.1 = none)
    (hnd : (kvs.map Prod.fst).Nodup) :
    Len (setAll c kvs) = Len c + kvs.length ∧
    ∀ p ∈ kvs, lookupK (setAll c kvs).index p.1 = some 0 ∧
      lookupK ((setAll c kvs).buckets 0) p.1 = some p.2 := by
  induction kvs generalizing c with
  | nil => exact ⟨rfl, fun p hp => absurd hp (List.not_mem_nil p)⟩
  | cons q tl ih =>
    obtain ⟨k0, v0⟩ := q
    rw [setAll_cons]
    have h0 : lookupK c.index k0 = none := habs (k0, v0) (List.mem_cons_self _ tl)
    have hsz : ¬ 0 < c.size := by omega
    have hcond : ¬ (0 < c.size ∧ (c.index.length : Int) = c.size) := fun h => hsz h.1
    have hlen1 : Len (Set c k0 v0) = Len c + 1 := by
      show (Set c k0 v0).index.length = c.index.length + 1
      rw [Set_new v0 h0, if_neg hcond]
      exact len_add v0 h0
    have hsz' : (Set c k0 v0).size < 0 := by rw [size_set]; exact hc
    simp only [List.map_cons, List.nodup_cons] at hnd
    have hne : ∀ p ∈ tl, p.1 ≠ k0 := by
      intro p hp he
      exact hnd.1 (he ▸ List.mem_map_of_mem Prod.fst hp)
    have habs' : ∀ p ∈ tl, lookupK (Set c k0 v0).index p.1 = none := by
      intro p hp
      rw [(set_frame_nopos hsz k0 p.1 v0 (hne p hp)).1]
      exact habs p (List.mem_cons_of_mem _ hp)
    obtain ⟨ihlen, ihmem⟩ := ih (Set c k0 v0) hsz' habs' hnd.2
    constructor
    · rw [ihlen, hlen1]
      simp
      omega
    · intro p hp
      rcases List.mem_cons.mp hp with hp | hp
      · subst hp
        obtain ⟨s1, s2⟩ := set_self c k0 v0
        have hsz'' : ¬ 0 < (Set c k0 v0).size := by omega
        obtain ⟨f1, f2⟩ := setAll_frame tl (Set c k0 v0) k0 hsz'' hne
        exact ⟨f1.trans s1, (f2 0).trans s2⟩
      · exact ihmem p hp

/-- C1: in every reachable state of the cache, every key present in the
frequency index appears in exactly one bucket, namely the bucket whose
array position equals the key's recorded level, and no other bucket
contains it; the sum of the sizes of all buckets equals the size of the
index (which is what `Len` returns), and when `size > 0` this sum never
exceeds `size`.  Every public operation (`Get`, `Set`, `Remove`) preserves
this, since reachable states are exactly those produced by them. -/
theorem C1_bucket_partition_invariant {K V : Type} [DecidableEq K] {c : Cache K V}
    (h : Reachable c) :
    (∀ k i, lookupK c.index k = some i →
        memK (c.buckets i) k ∧ ∀ j, j ≠ i → ¬ memK (c.buckets j) k)
    ∧ sumB c = Len c
    ∧ (0 < c.size → (sumB c : Int) ≤ c.size) := by
  have hwf := wf_reachable h
  refine ⟨?_, ?_, ?_⟩
  · intro k i hik
    refine ⟨(hwf.indexed k i).mp hik, ?_⟩
    intro j hj hm
    have hj' := (hwf.indexed k j).mpr hm
    rw [hik] at hj'
    exact hj (Option.some.inj hj').symm
  · rw [hwf.sumEq]; rfl
  · intro hpos
    rw [hwf.sumEq]
    exact hwf.sizeBound hpos

/-- Witness for C1 at the concrete reachable state `Set (New 2) 1 5`. -/
theorem C1_bucket_partition_invariant_witness :
    Reachable (Set (New ℕ ℕ 2) 1 5) ∧
    ((∀ k i, lookupK (Set (New ℕ ℕ 2) 1 5).index k = some i →
        memK ((Set (New ℕ ℕ 2) 1 5).buckets i) k ∧
        ∀ j, j ≠ i → ¬ memK ((Set (New ℕ ℕ 2) 1 5).buckets j) k)
     ∧ sumB (Set (New ℕ ℕ 2) 1 5) = Len (Set (New ℕ ℕ 2) 1 5)
     ∧ (0 < (Set (New ℕ ℕ 2) 1 5).size →
        (sumB (Set (New ℕ ℕ 2) 1 5) : Int) ≤ (Set (New ℕ ℕ 2) 1 5).size)) :=
  ⟨Reachable.set (New ℕ ℕ 2) 1 5 (Reachable.new 2),
   C1_bucket_partition_invariant (Reachable.set (New ℕ ℕ 2) 1 5 (Reachable.new 2))⟩

/-- C2: on a `Get` that hits, a level-0 entry is promoted to level 1
unconditionally (for every possible random draw); an entry at a
non-terminal level `i` with `1 ≤ i < maxBucketIndex` is promoted to level
`i+1` exactly when the draw satisfies `r < promoteBase ^ i`; an entry at
the terminal level is never promoted (the state is unchanged). -/
theorem C2_probabilistic_promotion {K V : Type} [DecidableEq K]
    (c : Cache K V) (k : K) (r : ℚ) (i : Nat)
    (h : lookupK c.index k = some i) :
    (i = 0 → lookupK ((Get c k r).2).index k = some 1)
    ∧ (1 ≤ i → i < maxBucketIndex →
        (lookupK ((Get c k r).2).index k = some (i + 1) ↔ r < promoteBase ^ i))
    ∧ (i = maxBucketIndex → (Get c k r).2 = c) := by
  refine ⟨?_, ?_, ?_⟩
  · intro h0
    subst h0
    rw [Get_hit_promote r h (Or.inl rfl)]
    exact lookupK_mapSet_self _ _ _
  · intro h1 h2
    by_cases hr : r < promoteBase ^ i
    · rw [Get_hit_promote r h (Or.inr ⟨h2, hr⟩)]
      have hx : lookupK (promote c i k).index k = some (i + 1) :=
        lookupK_mapSet_self _ _ _
      exact ⟨fun _ => hr, fun _ => hx⟩
    · have hc : ¬ (i = 0 ∨ (i < maxBucketIndex ∧ r < promoteBase ^ i)) := by
        rintro (h0 | ⟨_, hr'⟩)
        · omega
        · exact hr hr'
      rw [Get_hit_stay r h hc]
      constructor
      · intro hx
        rw [h] at hx
        have := Option.some.inj hx
        omega
      · intro hx
        exact absurd hx hr
  · intro h3
    have hc : ¬ (i = 0 ∨ (i < maxBucketIndex ∧ r < promoteBase ^ i)) := by
      rintro (h0 | ⟨hlt, _⟩)
      · rw [h0] at h3
        exact absurd h3.symm (by simp [maxBucketIndex, numBuckets])
      · rw [h3] at hlt
        exact absurd hlt (lt_irrefl _)
    rw [Get_hit_stay r h hc]

/-- Witness for C2 at a concrete hit on a level-0 entry. -/
theorem C2_probabilistic_promotion_witness :
    lookupK (Set (New ℕ ℕ 2) 1 5).index 1 = some 0 ∧
    ((0 = 0 → lookupK ((Get (Set (New ℕ ℕ 2) 1 5) 1 (1/2)).2).index 1 = some 1)
     ∧ (1 ≤ 0 → 0 < maxBucketIndex →
        (lookupK ((Get (Set (New ℕ ℕ 2) 1 5) 1 (1/2)).2).index 1 = some (0 + 1) ↔
          (1/2 : ℚ) < promoteBase ^ 0))
     ∧ (0 = maxBucketIndex → (Get (Set (New ℕ ℕ 2) 1 5) 1 (1/2)).2 = Set (New ℕ ℕ 2) 1 5)) :=
  ⟨by decide, C2_probabilistic_promotion (Set (New ℕ ℕ 2) 1 5) 1 (1/2) 0 (by decide)⟩

/-- C3: eviction on a non-empty well-formed cache removes exactly one
entry, deleting it from both the index and every bucket, leaving all other
keys' index entries unchanged; the removed entry comes from the
lowest-indexed non-empty bucket (every strictly lower bucket is empty). -/
theorem C3_evict_lowest_nonempty {K V : Type} [DecidableEq K] (c : Cache K V)
    (hwf : WF c) (hne : c.index ≠ []) :
    ∃ k0 i0, lookupK c.index k0 = some i0
      ∧ Len (evict c) + 1 = Len c
      ∧ lookupK (evict c).index k0 = none
      ∧ (∀ j, ¬ memK ((evict c).buckets j) k0)
      ∧ (∀ k', k' ≠ k0 → lookupK (evict c).index k' = lookupK c.index k')
      ∧ (∀ j, j < i0 → c.buckets j = []) := by
  obtain ⟨i0, k0, v0, t0, hi0, hb, hmin, he⟩ := evict_cases hwf hne
  have hmem : memK (c.buckets i0) k0 := by
    rw [hb]; exact memK_of_lookup (lookupK_head k0 v0 t0)
  have hik : lookupK c.index k0 = some i0 := (hwf.indexed k0 i0).mpr hmem
  obtain ⟨hwf', hlen⟩ := wf_del hwf hik
  have hwfe : WF (evict c) := he ▸ hwf'
  have hnone : lookupK (evict c).index k0 = none := by
    rw [he]; exact lookupK_mapDel_self _ _
  refine ⟨k0, i0, hik, ?_, hnone, ?_, ?_, hmin⟩
  · show (evict c).index.length + 1 = c.index.length
    rw [he]
    exact hlen
  · intro j hm
    have := (hwfe.indexed k0 j).mpr hm
    rw [hnone] at this
    exact Option.noConfusion this
  · intro k' hk
    rw [he]
    exact lookupK_mapDel_ne _ _ _ hk

/-- Witness for C3 on a concrete two-entry cache. -/
theorem C3_evict_lowest_nonempty_witness :
    WF (Set (Set (New ℕ ℕ 3) 1 10) 2 20) ∧
    (Set (Set (New ℕ ℕ 3) 1 10) 2 20).index ≠ [] ∧
    (∃ k0 i0, lookupK (Set (Set (New ℕ ℕ 3) 1 10) 2 20).index k0 = some i0
      ∧ Len (evict (Set (Set (New ℕ ℕ 3) 1 10) 2 20)) + 1
          = Len (Set (Set (New ℕ ℕ 3) 1 10) 2 20)
      ∧ lookupK (evict (Set (Set (New ℕ ℕ 3) 1 10) 2 20)).index k0 = none
      ∧ (∀ j, ¬ memK ((evict (Set (Set (New ℕ ℕ 3) 1 10) 2 20)).buckets j) k0)
      ∧ (∀ k', k' ≠ k0 →
          lookupK (evict (Set (Set (New ℕ ℕ 3) 1 10) 2 20)).index k'
            = lookupK (Set (Set (New ℕ ℕ 3) 1 10) 2 20).index k')
      ∧ (∀ j, j < i0 → (Set (Set (New ℕ ℕ 3) 1 10) 2 20).buckets j = [])) :=
  ⟨wf_set 2 20 (wf_set 1 10 (wf_new 3)), by decide,
   C3_evict_lowest_nonempty (Set (Set (New ℕ ℕ 3) 1 10) 2 20)
     (wf_set 2 20 (wf_set 1 10 (wf_new 3))) (by decide)⟩

/-- C4: round trip — in every cache state, `Set k v` immediately followed
by `Get k` returns `(v, true)`, whatever the random draw. -/
theorem C4_set_get_roundtrip {K V : Type} [DecidableEq K]
    (c : Cache K V) (k : K) (v : V) (r : ℚ) :
    (Get (Set c k v) k r).1 = (some v, true) :=
  get_after_set c k v r

/-- C5: `Set` of a key already present overwrites its value and
unconditionally resets its level to 0, moving it out of any higher bucket;
consequently `Set k v1; Set k v2; Get k` returns `(v2, true)` regardless
of the key's prior level. -/
theorem C5_overwrite_resets_level {K V : Type} [DecidableEq K]
    (c : Cache K V) (k : K) (i : Nat) (v1 v2 : V) (r : ℚ)
    (hwf : WF c) (_h : lookupK c.index k = some i) :
    lookupK (Set c k v2).index k = some 0
    ∧ lookupK ((Set c k v2).buckets 0) k = some v2
    ∧ (∀ j, j ≠ 0 → ¬ memK ((Set c k v2).buckets j) k)
    ∧ (Get (Set (Set c k v1) k v2) k r).1 = (some v2, true) := by
  obtain ⟨s1, s2⟩ := set_self c k v2
  refine ⟨s1, s2, ?_, get_after_set (Set c k v1) k v2 r⟩
  intro j hj hm
  have hwf' : WF (Set c k v2) := wf_set k v2 hwf
  have := (hwf'.indexed k j).mpr hm
  rw [s1] at this
  exact hj (Option.some.inj this).symm

/-- Witness for C5 at a concrete one-entry cache (prior level 0). -/
theorem C5_overwrite_resets_level_witness :
    WF (Set (New ℕ ℕ 2) 1 10) ∧
    lookupK (Set (New ℕ ℕ 2) 1 10).index 1 = some 0 ∧
    (lookupK (Set (Set (New ℕ ℕ 2) 1 10) 1 30).index 1 = some 0
     ∧ lookupK ((Set (Set (New ℕ ℕ 2) 1 10) 1 30).buckets 0) 1 = some 30
     ∧ (∀ j, j ≠ 0 → ¬ memK ((Set (Set (New ℕ ℕ 2) 1 10) 1 30).buckets j) 1)
     ∧ (Get (Set (Set (Set (New ℕ ℕ 2) 1 10) 1 20) 1 30) 1 (1/2)).1 = (some 30, true)) :=
  ⟨wf_set 1 10 (wf_new 2), by decide,
   C5_overwrite_resets_level (Set (New ℕ ℕ 2) 1 10) 1 0 20 30 (1/2)
     (wf_set 1 10 (wf_new 2)) (by decide)⟩

/-- C6: frame conditions — a `Set` of an existing key removes no entry and
leaves every other key's level and stored values unchanged; a `Set` of a
new key below capacity (where the eviction condition is false) likewise
leaves every other key unchanged, so eviction can only happen on an insert
of a new key at capacity with positive size; a `Get` of an absent key
returns a miss and leaves the whole state unchanged. -/
theorem C6_frame_conditions {K V : Type} [DecidableEq K]
    (c : Cache K V) (k : K) (v : V) (r : ℚ) :
    (∀ i, lookupK c.index k = some i →
        Len (Set c k v) = Len c ∧
        ∀ k', k' ≠ k →
          lookupK (Set c k v).index k' = lookupK c.index k' ∧
          ∀ j, lookupK ((Set c k v).buckets j) k' = lookupK (c.buckets j) k')
    ∧ (lookupK c.index k = none →
        ¬ (0 < c.size ∧ (c.index.length : Int) = c.size) →
        ∀ k', k' ≠ k →
          lookupK (Set c k v).index k' = lookupK c.index k' ∧
          ∀ j, lookupK ((Set c k v).buckets j) k' = lookupK (c.buckets j) k')
    ∧ (lookupK c.index k = none → Get c k r = ((none, false), c)) := by
  refine ⟨?_, ?_, ?_⟩
  · intro i h
    exact ⟨len_set_present v h, fun k' hk => set_frame_present v h k' hk⟩
  · intro h hcond k' hk
    exact set_frame_noevict v h hcond k' hk
  · intro h
    exact Get_miss r h

/-- Witness for C6: present-key update frame, absent-key insert frame, and
absent-key `Get` no-op, on a concrete cache of size 3 holding key 1. -/
theorem C6_frame_conditions_witness :
    (Len (Set (Set (New ℕ ℕ 3) 1 10) 1 99) = Len (Set (New ℕ ℕ 3) 1 10)
     ∧ lookupK (Set (Set (New ℕ ℕ 3) 1 10) 1 99).index 2
         = lookupK (Set (New ℕ ℕ 3) 1 10).index 2)
    ∧ (lookupK (Set (Set (New ℕ ℕ 3) 1 10) 2 99).index 1
         = lookupK (Set (New ℕ ℕ 3) 1 10).index 1)
    ∧ Get (Set (New ℕ ℕ 3) 1 10) 2 (1/2) = ((none, false), Set (New ℕ ℕ 3) 1 10) :=
  ⟨⟨((C6_frame_conditions (Set (New ℕ ℕ 3) 1 10) 1 99 (1/2)).1 0 (by decide)).1,
    (((C6_frame_conditions (Set (New ℕ ℕ 3) 1 10) 1 99 (1/2)).1 0 (by decide)).2 2
      (by decide)).1⟩,
   (((C6_frame_conditions (Set (New ℕ ℕ 3) 1 10) 2 99 (1/2)).2.1 (by decide)
      (by decide) 1 (by decide)).1),
   ((C6_frame_conditions (Set (New ℕ ℕ 3) 1 10) 2 99 (1/2)).2.2 (by decide))⟩

/-- C7: evaluation of the code at the failing input for the claim
"size 0 disables caching".  In the code, `Set` on a size-0 cache stores
the entry (the eviction condition `size > 0` never fires and `add` runs
unconditionally), so `Len` becomes 1 and the following `Get` hits —
contradicting the documented "size of 0 disables caching behavior". -/
theorem C7_size_zero_retains_entries :
    Len (Set (New ℕ ℕ 0) 1 1) = 1 ∧
    (Get (Set (New ℕ ℕ 0) 1 1) 1 (1/2)).1 = (some 1, true) :=
  ⟨by decide, get_after_set (New ℕ ℕ 0) 1 1 (1/2)⟩

/-- C8 counterexample: `New (-1)` does not fail fast — construction
succeeds, the negative size is stored unchanged (not coerced), and the
returned cache is usable (a `Set` followed by `Get` hits). -/
theorem C8_negative_size_accepted_cex :
    (New ℕ ℕ (-1)).size = -1 ∧ Len (New ℕ ℕ (-1)) = 0 ∧
    (Get (Set (New ℕ ℕ (-1)) 1 2) 1 (1/2)).1 = (some 2, true) :=
  ⟨rfl, rfl, get_after_set (New ℕ ℕ (-1)) 1 2 (1/2)⟩

/-- C8 amended: `New` never rejects any size, negative included: it always
returns an empty cache storing the given size unchanged, and that cache is
usable (a `Set` followed by `Get` hits). -/
theorem C8_new_never_rejects (size : Int) :
    (New ℕ ℕ size).size = size ∧ Len (New ℕ ℕ size) = 0 ∧
    (Get (Set (New ℕ ℕ size) 1 2) 1 (1/2)).1 = (some 2, true) :=
  ⟨rfl, rfl, get_after_set (New ℕ ℕ size) 1 2 (1/2)⟩

/-- C9: a cache created with a negative size never evicts: any `Set` on a
negative-size cache preserves every other key's index entry, and after
inserting `n` distinct keys into `New size` (with `size < 0`) all `n` are
retained at level 0 with their values and `Len = n`. -/
theorem C9_negative_size_unlimited {K V : Type} [DecidableEq K]
    (size : Int) (hs : size < 0)
    (kvs : List (K × V)) (hnd : (kvs.map Prod.fst).Nodup) :
    (∀ (c : Cache K V) (k0 : K) (w : V), c.size < 0 →
        ∀ k', k' ≠ k0 → lookupK (Set c k0 w).index k' = lookupK c.index k')
    ∧ Len (setAll (New K V size) kvs) = kvs.length
    ∧ ∀ p ∈ kvs, lookupK (setAll (New K V size) kvs).index p.1 = some 0
        ∧ lookupK ((setAll (New K V size) kvs).buckets 0) p.1 = some p.2 := by
  have hbase := setAll_negative kvs (New K V size) hs
    (fun p _ => rfl) hnd
  refine ⟨?_, ?_, hbase.2⟩
  · intro c k0 w hc k' hk
    exact (set_frame_nopos (by omega) k0 k' w hk).1
  · rw [hbase.1]
    show Len (New K V size) + kvs.length = kvs.length
    simp [Len, New]

/-- Witness for C9 with two distinct keys inserted into `New (-1)`. -/
theorem C9_negative_size_unlimited_witness :
    (-1 : Int) < 0 ∧
    (([((1:ℕ), (10:ℕ)), (2, 20)]).map Prod.fst).Nodup ∧
    ((∀ (c : Cache ℕ ℕ) (k0 : ℕ) (w : ℕ), c.size < 0 →
        ∀ k', k' ≠ k0 → lookupK (Set c k0 w).index k' = lookupK c.index k')
     ∧ Len (setAll (New ℕ ℕ (-1)) [(1, 10), (2, 20)]) = ([((1:ℕ), (10:ℕ)), (2, 20)]).length
     ∧ ∀ p ∈ [((1:ℕ), (10:ℕ)), (2, 20)],
        lookupK (setAll (New ℕ ℕ (-1)) [(1, 10), (2, 20)]).index p.1 = some 0
        ∧ lookupK ((setAll (New ℕ ℕ (-1)) [(1, 10), (2, 20)]).buckets 0) p.1 = some p.2) :=
  ⟨by decide, by decide,
   C9_negative_size_unlimited (-1) (by decide) [(1, 10), (2, 20)] (by decide)⟩

end LFU

namespace TraceArc

/-- A scanner line, as the list of its bytes (characters). -/
abbrev Line := List Char

/-- One digit-parsing pass of Go's `strconv.Atoi` over the remaining
characters: `none` when a non-digit is met (Go reports `ErrSyntax`). -/
def parseDigits : List Char → Nat → Option Nat
  | [], acc => some acc
  | c :: cs, acc =>
    if '0' ≤ c ∧ c ≤ '9' then parseDigits cs (acc * 10 + (c.toNat - 48)) else none

/-- `strconv.Atoi` with its error discarded, as at the `chompInt` call
site (`n, _ := strconv.Atoi(...)`): an optional sign followed by at least
one digit parses to its value; any syntax error yields Go's zero result 0.
Go's 64-bit `int` is embedded as the unbounded `Int` (the traces stay far
from overflow). -/
def atoi (s : List Char) : Int :=
  match s with
  | [] => 0
  | c :: rest =>
    if c = '-' then
      match rest, parseDigits rest 0 with
      | _ :: _, some n => -(n : Int)
      | _, _ => 0
    else if c = '+' then
      match rest, parseDigits rest 0 with
      | _ :: _, some n => (n : Int)
      | _, _ => 0
    else
      match parseDigits (c :: rest) 0 with
      | some n => (n : Int)
      | none => 0

/-- `bytes.Index(line, arcSep)`: position of the first space, if any. -/
def sepIdx : List Char → Option Nat
  | [] => none
  | c :: cs => if c = ' ' then some 0 else (sepIdx cs).map (fun n => n + 1)

/-- `chompInt` of `src/unnamed/part_000`: split the line at the first
space; `Atoi` the prefix (errors ignored) and return it with the suffix.
When the line holds no space, `bytes.Index` returns -1 and
`unsafe.String(&line[0], -1)` panics at run time (as does `&line[0]` on an
empty line); the panic is embedded as `none`. -/
def chompInt (line : Line) : Option (Int × Line) :=
  match sepIdx line with
  | none => none
  | some sep => some (atoi (line.take sep), line.drop (sep + 1))

/-- The `arcReader` struct: the remaining scanner lines and the current
run (`r.k`, `r.n`). -/
structure ArcReader where
  lines : List Line
  k : Int
  n : Int
  deriving DecidableEq

/-- `newARCReader`: fields start at Go zero values. -/
def newARCReader (lines : List Line) : ArcReader := ⟨lines, 0, 0⟩

/-- The inner `for r.n == 0` loop of `arcReader.Read`: scan and parse
lines until the current run is non-empty.  Results: `none` embeds a
`chompInt` panic; `some (false, …)` means the scanner was exhausted (Read
returns the keys filled so far); `some (true, lines, k, n)` is the state
with `n ≠ 0`, ready to emit. -/
def refill : List Line → Int → Int → Option (Bool × List Line × Int × Int)
  | [], k, n =>
    if n ≠ 0 then some (true, [], k, n) else some (false, [], k, n)
  | l :: rest, k, n =>
    if n ≠ 0 then some (true, l :: rest, k, n)
    else
      match chompInt l with
      | none => none
      | some p =>
        match chompInt p.2 with
        | none => none
        | some q => refill rest p.1 q.1

/-- `arcReader.Read` with a destination buffer of length `m`: returns the
keys written (in order) and the reader state afterwards, or `none` when a
malformed line makes `chompInt` panic.  Each emitted key executes
`keys[i] = r.k; r.k++; r.n--`. -/
def arcRead : ArcReader → Nat → Option (List Int × ArcReader)
  | r, 0 => some ([], r)
  | r, m + 1 =>
    match refill r.lines r.k r.n with
    | none => none
    | some (false, lines1, k1, n1) => some ([], ⟨lines1, k1, n1⟩)
    | some (true, lines1, k1, n1) =>
      match arcRead ⟨lines1, k1 + 1, n1 - 1⟩ m with
      | none => none
      | some pr => some (k1 :: pr.1, pr.2)

/-- Decimal digit characters of `n`, most significant first. -/
def natChars (n : Nat) : List Char :=
  if n = 0 then ['0']
  else ((Nat.digits 10 n).reverse).map (fun d => Char.ofNat (48 + d))

/-- Canonical decimal literal of an integer. -/
def intChars (z : Int) : List Char :=
  if z < 0 then '-' :: natChars z.natAbs else natChars z.toNat

/-- A well-formed run-length trace line `"<key> <count> <rest>"`: the
decimal key, a space, the decimal count, a space, then the rest of the
line (further fields of the ARC format; possibly empty). -/
def mkArcLine (key cnt : Int) (rest : Line) : Line :=
  intChars key ++ ' ' :: (intChars cnt ++ ' ' :: rest)

/-- The run-length expansion the spec describes: for each `(key, count)`
in order, the `count` consecutive keys `key, key+1, …, key+count-1`. -/
def expandRuns (spec : List (Int × Nat)) : List Int :=
  spec.flatMap (fun p => (List.range p.2).map (fun (j : Nat) => p.1 + (j : Int)))

theorem digitChar_facts (d : Nat) (hd : d < 10) :
    ('0' ≤ Char.ofNat (48 + d) ∧ Char.ofNat (48 + d) ≤ '9')
    ∧ (Char.ofNat (48 + d)).toNat - 48 = d
    ∧ Char.ofNat (48 + d) ≠ ' '
    ∧ Char.ofNat (48 + d) ≠ '-'
    ∧ Char.ofNat (48 + d) ≠ '+' := by
  interval_cases d <;> decide

theorem parseDigits_map (ds : List Nat) (hlt : ∀ d ∈ ds, d < 10) :
    ∀ acc, parseDigits (ds.map (fun d => Char.ofNat (48 + d))) acc
      = some (ds.foldl (fun a d => a * 10 + d) acc) := by
  induction ds with
  | nil => intro acc; rfl
  | cons d tl ih =>
    intro acc
    have hd : d < 10 := hlt d (List.mem_cons_self d tl)
    have hf := digitChar_facts d hd
    simp only [List.map_cons, parseDigits, List.foldl_cons]
    rw [if_pos hf.1, hf.2.1]
    exact ih (fun x hx => hlt x (List.mem_cons_of_mem d hx)) (acc * 10 + d)

theorem foldr_mul_add (L : List Nat) :
    L.foldr (fun x y => y * 10 + x) 0 = Nat.ofDigits 10 L := by
  induction L with
  | nil => simp [Nat.ofDigits]
  | cons d tl ih =>
    simp only [List.foldr_cons, ih, Nat.ofDigits_cons]
    omega

theorem foldl_digits (n : Nat) :
    ((Nat.digits 10 n).reverse).foldl (fun a d => a * 10 + d) 0 = n := by
  rw [List.foldl_reverse]
  show (Nat.digits 10 n).foldr (fun x y => y * 10 + x) 0 = n
  rw [foldr_mul_add]
  exact_mod_cast Nat.ofDigits_digits 10 n

theorem natChars_all_digits (n : Nat) : ∀ c ∈ natChars n, '0' ≤ c ∧ c ≤ '9' := by
  intro c hc
  unfold natChars at hc
  split at hc
  · simp at hc; subst hc; decide
  · simp only [List.mem_map] at hc
    obtain ⟨d, hd, rfl⟩ := hc
    have : d < 10 := Nat.digits_lt_base (by norm_num) (List.mem_reverse.mp hd)
    exact (digitChar_facts d this).1

theorem natChars_ne_nil (n : Nat) : natChars n ≠ [] := by
  unfold natChars
  split
  · simp
  · rename_i hn
    intro h
    cases hd : Nat.digits 10 n with
    | nil => exact (Nat.digits_ne_nil_iff_ne_zero.mpr hn) hd
    | cons d tl => simp [hd] at h

theorem parseDigits_natChars (n : Nat) : parseDigits (natChars n) 0 = some n := by
  unfold natChars
  split
  · rename_i h; subst h; decide
  · rw [parseDigits_map _
      (fun d hd => Nat.digits_lt_base (by norm_num) (List.mem_reverse.mp hd)) 0]
    rw [foldl_digits]

theorem atoi_digits {s : List Char} {n : Nat} (hne : s ≠ [])
    (hdig : ∀ c ∈ s, '0' ≤ c ∧ c ≤ '9') (hp : parseDigits s 0 = some n) :
    atoi s = n := by
  cases s with
  | nil => exact absurd rfl hne
  | cons c rest =>
    have h0 := hdig c (List.mem_cons_self c rest)
    have hm : ¬ c = '-' := by intro h; subst h; exact absurd h0.1 (by decide)
    have hpl : ¬ c = '+' := by intro h; subst h; exact absurd h0.1 (by decide)
    simp only [atoi, if_neg hm, if_neg hpl]
    rw [hp]

theorem atoi_natChars (n : Nat) : atoi (natChars n) = n :=
  atoi_digits (natChars_ne_nil n) (natChars_all_digits n) (parseDigits_natChars n)

theorem atoi_intChars (z : Int) : atoi (intChars z) = z := by
  unfold intChars
  split
  · rename_i hz
    have hpd : parseDigits (natChars z.natAbs) 0 = some z.natAbs :=
      parseDigits_natChars _
    obtain ⟨c, rest, hcr⟩ : ∃ c rest, natChars z.natAbs = c :: rest := by
      cases h : natChars z.natAbs with
      | nil => exact absurd h (natChars_ne_nil _)
      | cons c rest => exact ⟨c, rest, rfl⟩
    rw [hcr] at hpd
    rw [hcr]
    have hstep : atoi ('-' :: c :: rest)
        = match (c :: rest : List Char), parseDigits (c :: rest) 0 with
          | _ :: _, some n => -(n : Int)
          | _, _ => 0 := rfl
    rw [hstep, hpd]
    show -(z.natAbs : Int) = z
    omega
  · rename_i hz
    rw [atoi_natChars]
    omega

theorem intChars_no_space (z : Int) : ∀ c ∈ intChars z, c ≠ ' ' := by
  intro c hc heq
  subst heq
  unfold intChars at hc
  split at hc
  · rcases List.mem_cons.mp hc with h | h
    · exact absurd h (by decide)
    · exact absurd (natChars_all_digits _ _ h).1 (by decide)
  · exact absurd (natChars_all_digits _ _ hc).1 (by decide)

theorem sepIdx_append (l1 l2 : List Char) (h : ∀ c ∈ l1, c ≠ ' ') :
    sepIdx (l1 ++ ' ' :: l2) = some l1.length := by
  induction l1 with
  | nil => simp [sepIdx]
  | cons c t ih =>
    have hc : ¬ c = ' ' := h c (List.mem_cons_self c t)
    simp only [List.cons_append, sepIdx, if_neg hc, List.append_eq]
    rw [ih (fun x hx => h x (List.mem_cons_of_mem c hx))]
    rfl

/-- `chompInt` on a well-formed field `"<int> <tail>"` parses the integer
and returns the tail after the separator. -/
theorem chompInt_mk (a : Int) (tail : List Char) :
    chompInt (intChars a ++ ' ' :: tail) = some (a, tail) := by
  have hdrop : (intChars a ++ ' ' :: tail).drop ((intChars a).length + 1) = tail := by
    rw [show intChars a ++ ' ' :: tail = (intChars a ++ [' ']) ++ tail by simp]
    rw [show (intChars a).length + 1 = (intChars a ++ [' ']).length by simp]
    exact List.drop_left _ _
  simp only [chompInt, sepIdx_append _ _ (intChars_no_space a)]
  rw [List.take_left, hdrop, atoi_intChars]

theorem refill_ready (lines : List Line) (k : Int) {n : Int} (hn : n ≠ 0) :
    refill lines k n = some (true, lines, k, n) := by
  cases lines <;> simp [refill, hn]

theorem refill_nil (k : Int) : refill [] k 0 = some (false, [], k, 0) := rfl

theorem refill_step (l : Line) (rest : List Line) (k k1 n1 : Int) (rem x : Line)
    (h1 : chompInt l = some (k1, rem)) (h2 : chompInt rem = some (n1, x)) :
    refill (l :: rest) k 0 = refill rest k1 n1 := by
  simp [refill, h1, h2]

theorem arcRead_eof (k : Int) (m : Nat) :
    arcRead ⟨[], k, 0⟩ m = some ([], ⟨[], k, 0⟩) := by
  cases m with
  | zero => rfl
  | succ m1 => simp [arcRead, refill_nil]

theorem arcRead_congr (m : Nat) (r1 r2 : ArcReader)
    (h : refill r1.lines r1.k r1.n = refill r2.lines r2.k r2.n) :
    arcRead r1 (m + 1) = arcRead r2 (m + 1) := by
  simp only [arcRead]
  rw [h]

theorem arcRead_ready {n : Int} (lines : List Line) (k : Int) (hn : n ≠ 0) (m : Nat) :
    arcRead ⟨lines, k, n⟩ (m + 1)
      = (arcRead ⟨lines, k + 1, n - 1⟩ m).map (fun pr => (k :: pr.1, pr.2)) := by
  cases h : arcRead ⟨lines, k + 1, n - 1⟩ m with
  | none => simp [arcRead, refill_ready lines k hn, h]
  | some pr => simp [arcRead, refill_ready lines k hn, h]

/-- Emitting a full run of `cnt` keys starting at `k`. -/
theorem arcRead_run (cnt : Nat) :
    ∀ (k : Int) (lines : List Line) (m : Nat), cnt ≤ m →
      arcRead ⟨lines, k, (cnt : Int)⟩ m
        = (arcRead ⟨lines, k + (cnt : Int), 0⟩ (m - cnt)).map
            (fun pr => ((List.range cnt).map (fun (j : Nat) => k + (j : Int)) ++ pr.1, pr.2)) := by
  induction cnt with
  | zero =>
    intro k lines m _
    simp only [Nat.cast_zero, Nat.sub_zero, List.range_zero, List.map_nil,
      List.nil_append, add_zero]
    cases h : arcRead ⟨lines, k, 0⟩ m <;> simp [h]
  | succ cnt ih =>
    intro k lines m hm
    cases m with
    | zero => omega
    | succ m1 =>
      have hcast : ((cnt + 1 : Nat) : Int) ≠ 0 := by push_cast; omega
      have hsub : ((cnt + 1 : Nat) : Int) - 1 = (cnt : Int) := by push_cast; ring
      rw [arcRead_ready lines k hcast m1, hsub, ih (k + 1) lines m1 (by omega)]
      have hms : m1 + 1 - (cnt + 1) = m1 - cnt := by omega
      have hk : k + 1 + (cnt : Int) = k + ((cnt + 1 : Nat) : Int) := by push_cast; ring
      rw [hms, hk]
      have hlist : (List.range (cnt + 1)).map (fun (j : Nat) => k + (j : Int))
          = k :: (List.range cnt).map (fun (j : Nat) => k + 1 + (j : Int)) := by
        rw [List.range_succ_eq_map]
        simp only [List.map_cons, List.map_map, Nat.cast_zero, add_zero]
        refine congrArg _ (List.map_congr_left ?_)
        intro j _
        simp only [Function.comp_apply]
        push_cast
        ring
      cases h : arcRead ⟨lines, k + ((cnt + 1 : Nat) : Int), 0⟩ (m1 - cnt) with
      | none => simp [h]
      | some pr => simp [h, hlist]

/-- C10 counterexample: on the single line `"5 3"` — an integer key, a
single separator space, and an integer count, which is exactly the input
format the claim quantifies over — `Read` does not yield the keys
`5, 6, 7`: the second `chompInt` call receives `"3"`, `bytes.Index`
returns `-1`, and `unsafe.String(&line[0], -1)` panics at run time
(embedded as `none`). -/
theorem C10_two_field_line_panics_cex :
    arcRead (newARCReader [['5', ' ', '3']]) 3 = none := by decide

/-- C10 amended: for every trace input in which each line consists of an
integer key, a separator space, a nonnegative integer count, and a
further space-separated remainder (as in actual ARC trace lines
`"key count x y"`), `Read` into a large enough buffer yields, for each
line in order, exactly `count` consecutive keys starting at `key` and
incrementing by 1 each time (`key, key+1, …, key+count-1`), ending when
the count is exhausted. -/
theorem C10_arc_runlength_expansion (spec : List (Int × Nat × Line)) (k : Int) (m : Nat)
    (hm : (expandRuns (spec.map (fun p => (p.1, p.2.1)))).length ≤ m) :
    ∃ rdr, arcRead ⟨spec.map (fun p => mkArcLine p.1 (p.2.1 : Int) p.2.2), k, 0⟩ m
      = some (expandRuns (spec.map (fun p => (p.1, p.2.1))), rdr) := by
  induction spec generalizing k m with
  | nil =>
    refine ⟨⟨[], k, 0⟩, ?_⟩
    simpa [expandRuns] using arcRead_eof k m
  | cons q tl ih =>
    obtain ⟨key, cnt, rest⟩ := q
    have hexp : expandRuns (((key, cnt, rest) :: tl).map (fun p => (p.1, p.2.1)))
        = (List.range cnt).map (fun (j : Nat) => key + (j : Int))
          ++ expandRuns (tl.map (fun p => (p.1, p.2.1))) := by
      simp [expandRuns]
    rw [hexp] at hm ⊢
    have hlen : cnt + (expandRuns (tl.map (fun p => (p.1, p.2.1)))).length ≤ m := by
      simpa using hm
    cases m with
    | zero =>
      have hcnt : cnt = 0 := by omega
      have htl : expandRuns (tl.map (fun p => (p.1, p.2.1))) = [] :=
        List.length_eq_zero.mp (by omega)
      subst hcnt
      exact ⟨⟨((key, 0, rest) :: tl).map (fun p => mkArcLine p.1 (p.2.1 : Int) p.2.2), k, 0⟩,
        by simp [arcRead, htl]⟩
    | succ m1 =>
      have hchomp1 : chompInt (mkArcLine key (cnt : Int) rest)
          = some (key, intChars (cnt : Int) ++ ' ' :: rest) :=
        chompInt_mk key _
      have hchomp2 : chompInt (intChars (cnt : Int) ++ ' ' :: rest)
          = some ((cnt : Int), rest) :=
        chompInt_mk (cnt : Int) rest
      have hcong : arcRead ⟨((key, cnt, rest) :: tl).map
            (fun p => mkArcLine p.1 (p.2.1 : Int) p.2.2), k, 0⟩ (m1 + 1)
          = arcRead ⟨tl.map (fun p => mkArcLine p.1 (p.2.1 : Int) p.2.2),
              key, (cnt : Int)⟩ (m1 + 1) := by
        apply arcRead_congr
        show refill (mkArcLine key (cnt : Int) rest
            :: tl.map (fun p => mkArcLine p.1 (p.2.1 : Int) p.2.2)) k 0
          = refill (tl.map (fun p => mkArcLine p.1 (p.2.1 : Int) p.2.2)) key (cnt : Int)
        exact refill_step _ _ _ _ _ _ _ hchomp1 hchomp2
      rw [hcong, arcRead_run cnt key _ (m1 + 1) (by omega)]
      obtain ⟨rdr, hr⟩ := ih (key + (cnt : Int)) (m1 + 1 - cnt) (by omega)
      refine ⟨rdr, ?_⟩
      rw [hr]
      rfl

/-- Witness for the amended C10 on the single line `"5 3 "` read into a
buffer of 3 keys. -/
theorem C10_arc_runlength_expansion_witness :
    (expandRuns (([((5 : Int), (3 : Nat), ([] : Line))]).map (fun p => (p.1, p.2.1)))).length ≤ 3
    ∧ ∃ rdr, arcRead ⟨([((5 : Int), (3 : Nat), ([] : Line))]).map
          (fun p => mkArcLine p.1 (p.2.1 : Int) p.2.2), 0, 0⟩ 3
        = some (expandRuns (([((5 : Int), (3 : Nat), ([] : Line))]).map
            (fun p => (p.1, p.2.1))), rdr) :=
  ⟨by decide, C10_arc_runlength_expansion [((5 : Int), (3 : Nat), ([] : Line))] 0 3 (by decide)⟩

end TraceArc
